import Mathlib

/-!
Verification of the thumbnail loading/caching core of hyprwall (`src/gui.rs`)
against its natural-language specification.

The Rust code is shallowly embedded:
* `PathBuf` and `gdk::Texture` values are abstracted to natural numbers
  (only equality of paths and identity of textures matter to the claims);
* `HashMap<PathBuf, Texture>` is an association list with pairwise-distinct
  keys (all operations used by the code preserve key distinctness);
* `VecDeque<PathBuf>` is a `List` whose head is the front of the deque;
* the image decoder `Pixbuf::from_file_at_scale(path, 250, 250, true).ok()`
  is an explicit `Option Texture` oracle passed to `get_or_insert`;
* the concurrent pipeline of `load_images` (worker threads, crossbeam
  channel, GTK idle drain loop) is modelled as a small-step event system
  over explicit states, with every interleaving of events allowed.
-/

abbrev FsPath := Nat
abbrev Texture := Nat

/-- `CACHE_SIZE` constant, gui.rs line 28. -/
def CACHE_SIZE : Nat := 100

/-- Association-list lookup; models `HashMap::get`. -/
def lookupA (k : FsPath) : List (FsPath × Texture) → Option Texture
  | [] => none
  | (k', v) :: rest => if k' = k then some v else lookupA k rest

/-- Association-list removal; models `HashMap::remove` (the removed value is
not used by the code). -/
def removeA (k : FsPath) (l : List (FsPath × Texture)) : List (FsPath × Texture) :=
  l.filter (fun q => q.1 != k)

/-- Association-list insert-or-overwrite; models `HashMap::insert`. -/
def insertA (k : FsPath) (v : Texture) (l : List (FsPath × Texture)) :
    List (FsPath × Texture) :=
  (k, v) :: removeA k l

/-- `ImageCache` (gui.rs lines 30-33): hash map from path to decoded texture
plus a recency deque `order`, most recently used at the front. -/
structure ImageCache where
  cache : List (FsPath × Texture)
  order : List FsPath
deriving DecidableEq

/-- `ImageCache::new` (gui.rs lines 43-48). -/
def ImageCache.new : ImageCache := ⟨[], []⟩

/-- `ImageCache::get` (gui.rs lines 50-55): look the path up; on a hit,
`inspect` retains all other paths in `order` and pushes the path to the
front. Returns the looked-up texture together with the updated cache. -/
def ImageCache.get (c : ImageCache) (p : FsPath) : Option Texture × ImageCache :=
  match lookupA p c.cache with
  | none => (none, c)
  | some t => (some t, { c with order := p :: c.order.filter (fun q => q != p) })

/-- `ImageCache::insert` (gui.rs lines 57-65): if the map holds at least
`CACHE_SIZE` entries, pop the back of `order` and remove that path from the
map; then insert the new mapping and push the path to the front of `order`. -/
def ImageCache.insert (c : ImageCache) (p : FsPath) (t : Texture) : ImageCache :=
  let c1 :=
    if CACHE_SIZE ≤ c.cache.length then
      match c.order.getLast? with
      | some old => { c with cache := removeA old c.cache, order := c.order.dropLast }
      | none => c
    else c
  { c1 with cache := insertA p t c1.cache, order := p :: c1.order }

/-- `ImageCache::get_or_insert` (gui.rs lines 67-74). The decode oracle
`dec` stands for `Pixbuf::from_file_at_scale(path, max_size, max_size,
true).ok()` followed by `Texture::for_pixbuf`; it may differ between calls
(the filesystem can change). Result: the returned texture, the cache after
the call, and whether the decoder was invoked. -/
def ImageCache.get_or_insert (c : ImageCache) (p : FsPath) (dec : Option Texture) :
    Option Texture × ImageCache × Bool :=
  match c.get p with
  | (some t, c') => (some t, c', false)
  | (none, c') =>
      match dec with
      | none => (none, c', true)
      | some t => (some t, c'.insert p t, true)

/-! ### Basic association-list lemmas -/

theorem lookupA_eq_none_of_nil (k : FsPath) : lookupA k [] = none := rfl

theorem mem_keys_of_lookupA_isSome {k : FsPath} {l : List (FsPath × Texture)}
    (h : (lookupA k l).isSome = true) : k ∈ l.map Prod.fst := by
  induction l with
  | nil => simp [lookupA] at h
  | cons hd tl ih =>
    by_cases hk : hd.1 = k
    · simp [hk]
    · obtain ⟨a, b⟩ := hd
      simp only [lookupA, if_neg hk] at h
      simp [ih h]

theorem lookupA_isSome_of_mem_keys {k : FsPath} {l : List (FsPath × Texture)}
    (h : k ∈ l.map Prod.fst) : (lookupA k l).isSome = true := by
  induction l with
  | nil => simp at h
  | cons hd tl ih =>
    obtain ⟨a, b⟩ := hd
    by_cases hk : a = k
    · simp [lookupA, hk]
    · simp only [List.map_cons, List.mem_cons] at h
      rcases h with h | h

      · exact absurd h.symm hk
      · simp [lookupA, if_neg hk, ih h]

theorem removeA_eq_self_of_lookupA_none {k : FsPath} {l : List (FsPath × Texture)}
    (h : lookupA k l = none) : removeA k l = l := by
  induction l with
  | nil => rfl
  | cons hd tl ih =>
    obtain ⟨a, b⟩ := hd
    by_cases hk : a = k
    · simp [lookupA, hk] at h
    · simp only [lookupA, if_neg hk] at h
      have htl := ih h
      simp only [removeA] at htl ⊢
      rw [List.filter_cons_of_pos (by simpa [bne_iff_ne] using hk), htl]

theorem lookupA_removeA_self (k : FsPath) (l : List (FsPath × Texture)) :
    lookupA k (removeA k l) = none := by
  induction l with
  | nil => rfl
  | cons hd tl ih =>
    obtain ⟨a, b⟩ := hd
    simp only [removeA] at ih ⊢
    by_cases hk : a = k
    · rw [List.filter_cons_of_neg (by simp [hk])]
      exact ih
    · rw [List.filter_cons_of_pos (by simpa [bne_iff_ne] using hk)]
      simpa [lookupA, if_neg hk] using ih

theorem lookupA_removeA_ne {k k' : FsPath} (hne : k' ≠ k) (l : List (FsPath × Texture)) :
    lookupA k' (removeA k l) = lookupA k' l := by
  induction l with
  | nil => rfl
  | cons hd tl ih =>
    obtain ⟨a, b⟩ := hd
    simp only [removeA] at ih ⊢
    by_cases hk : a = k
    · rw [List.filter_cons_of_neg (by simp [hk])]
      rw [ih]
      have hak : a ≠ k' := by rw [hk]; exact fun h => hne h.symm
      simp [lookupA, if_neg hak]
    · rw [List.filter_cons_of_pos (by simpa [bne_iff_ne] using hk)]
      simp only [lookupA]
      by_cases hk' : a = k'
      · simp [hk']
      · simp [if_neg hk', ih]

theorem lookupA_insertA_self (k : FsPath) (v : Texture) (l : List (FsPath × Texture)) :
    lookupA k (insertA k v l) = some v := by
  simp [insertA, lookupA]

theorem lookupA_insertA_ne {k k' : FsPath} (hne : k' ≠ k) (v : Texture)
    (l : List (FsPath × Texture)) :
    lookupA k' (insertA k v l) = lookupA k' l := by
  have hkk : k ≠ k' := fun h => hne h.symm
  simp only [insertA, lookupA, if_neg hkk]
  exact lookupA_removeA_ne hne l

/-! ### C5: cache-aside behaviour of `get_or_insert` on decode failure -/

/-- C5: if the path is not cached and the decoder fails, `get_or_insert`
returns nothing, leaves the cache unchanged and did invoke the decoder;
calling it again on the (unchanged) cache with the decoder now succeeding
invokes the decoder again and returns the texture. No negative caching. -/
theorem C5_get_or_insert (c : ImageCache) (p : FsPath) (t : Texture)
    (hp : lookupA p c.cache = none) :
    c.get_or_insert p none = (none, c, true) ∧
    (((c.get_or_insert p none).2.1).get_or_insert p (some t)).1 = some t ∧
    (((c.get_or_insert p none).2.1).get_or_insert p (some t)).2.2 = true := by
  have hget : c.get p = (none, c) := by simp [ImageCache.get, hp]
  refine ⟨by simp [ImageCache.get_or_insert, hget], ?_, ?_⟩ <;>
    simp [ImageCache.get_or_insert, hget]

/-- Witness for C5 at the empty cache. -/
theorem C5_witness :
    ImageCache.new.get_or_insert 0 none = (none, ImageCache.new, true) ∧
    (((ImageCache.new.get_or_insert 0 none).2.1).get_or_insert 0 (some 5)).1 = some 5 ∧
    (((ImageCache.new.get_or_insert 0 none).2.1).get_or_insert 0 (some 5)).2.2 = true :=
  C5_get_or_insert ImageCache.new 0 5 (by decide)

/-! ### C6: `get` semantics -/

/-- C6: `get` on a miss returns nothing and leaves the cache untouched; on a
hit it returns the stored texture, leaves the map untouched, moves the path
to the most-recently-used (front) position of the recency order, and
preserves membership of every other path in the recency order. -/
theorem C6_get (c : ImageCache) (p : FsPath) :
    (lookupA p c.cache = none → c.get p = (none, c)) ∧
    (∀ t, lookupA p c.cache = some t →
      (c.get p).1 = some t ∧
      (c.get p).2.cache = c.cache ∧
      (c.get p).2.order.head? = some p ∧
      ∀ q, q ≠ p → (q ∈ (c.get p).2.order ↔ q ∈ c.order)) := by
  constructor
  · intro h
    simp [ImageCache.get, h]
  · intro t h
    refine ⟨by simp [ImageCache.get, h], by simp [ImageCache.get, h],
      by simp [ImageCache.get, h], ?_⟩
    intro q hq
    simp [ImageCache.get, h, List.mem_filter, bne_iff_ne, hq]

/-- Witness for C6: a miss on path 2 and a hit on path 1 in a one-entry cache. -/
theorem C6_witness :
    ((⟨[(1, 10)], [1, 0]⟩ : ImageCache).get 2 = (none, ⟨[(1, 10)], [1, 0]⟩)) ∧
    (((⟨[(1, 10)], [1, 0]⟩ : ImageCache).get 1).1 = some 10 ∧
      ((⟨[(1, 10)], [1, 0]⟩ : ImageCache).get 1).2.cache = [(1, 10)] ∧
      ((⟨[(1, 10)], [1, 0]⟩ : ImageCache).get 1).2.order.head? = some 1 ∧
      ∀ q, q ≠ 1 → (q ∈ ((⟨[(1, 10)], [1, 0]⟩ : ImageCache).get 1).2.order ↔
        q ∈ ([1, 0] : List FsPath))) :=
  ⟨(C6_get ⟨[(1, 10)], [1, 0]⟩ 2).1 (by decide),
   (C6_get ⟨[(1, 10)], [1, 0]⟩ 1).2 10 (by decide)⟩

/-! ### Well-formed cache states -/

/-- Well-formedness of an `ImageCache` state (spec section 3): `order` is a
duplicate-free recency ordering of exactly the cached paths, and the map
keys are pairwise distinct. Every state the running program reaches is
well-formed, because `insert` is only invoked through `get_or_insert` after
a missed `get`. -/
structure WfCache (c : ImageCache) : Prop where
  nodupOrder : c.order.Nodup
  memIff : ∀ p, p ∈ c.order ↔ (lookupA p c.cache).isSome = true
  nodupKeys : (c.cache.map Prod.fst).Nodup

theorem WfCache.length_order {c : ImageCache} (h : WfCache c) :
    c.order.length = c.cache.length := by
  have hset : c.order.toFinset = (c.cache.map Prod.fst).toFinset := by
    ext x
    simp only [List.mem_toFinset]
    constructor
    · intro hx
      exact mem_keys_of_lookupA_isSome ((h.memIff x).1 hx)
    · intro hx
      exact (h.memIff x).2 (lookupA_isSome_of_mem_keys hx)
  have h1 := List.toFinset_card_of_nodup h.nodupOrder
  have h2 := List.toFinset_card_of_nodup h.nodupKeys
  rw [hset, h2, List.length_map] at h1
  exact h1.symm

theorem length_insertA_of_lookupA_none {k : FsPath} {l : List (FsPath × Texture)}
    (h : lookupA k l = none) (v : Texture) :
    (insertA k v l).length = l.length + 1 := by
  simp [insertA, removeA_eq_self_of_lookupA_none h]

theorem length_removeA_of_isSome {k : FsPath} {l : List (FsPath × Texture)}
    (hnd : (l.map Prod.fst).Nodup) (h : (lookupA k l).isSome = true) :
    (removeA k l).length + 1 = l.length := by
  induction l with
  | nil => simp [lookupA] at h
  | cons hd tl ih =>
    obtain ⟨a, b⟩ := hd
    simp only [List.map_cons, List.nodup_cons] at hnd
    by_cases hk : a = k
    · subst hk
      have hnone : lookupA a tl = none := by
        cases hx : lookupA a tl with
        | none => rfl
        | some v =>
          exact absurd (mem_keys_of_lookupA_isSome (by simp [hx])) hnd.1
      have heq := removeA_eq_self_of_lookupA_none hnone
      simp only [removeA] at heq ⊢
      rw [List.filter_cons_of_neg (by simp), heq]
      simp
    · simp only [lookupA, if_neg hk] at h
      have := ih hnd.2 h
      simp only [removeA] at this ⊢
      rw [List.filter_cons_of_pos (by simpa [bne_iff_ne] using hk)]
      simp only [List.length_cons]
      omega

theorem nodupKeys_removeA {k : FsPath} {l : List (FsPath × Texture)}
    (h : (l.map Prod.fst).Nodup) : ((removeA k l).map Prod.fst).Nodup :=
  h.sublist ((List.filter_sublist l).map Prod.fst)

theorem nodupKeys_insertA {k : FsPath} (v : Texture) {l : List (FsPath × Texture)}
    (h : (l.map Prod.fst).Nodup) : ((insertA k v l).map Prod.fst).Nodup := by
  simp only [insertA, List.map_cons, List.nodup_cons]
  refine ⟨?_, nodupKeys_removeA h⟩
  intro hmem
  have := lookupA_isSome_of_mem_keys hmem
  rw [lookupA_removeA_self] at this
  simp at this

/-- Shape of `insert` below capacity. -/
theorem insert_eq_of_lt {c : ImageCache} (h : c.cache.length < CACHE_SIZE)
    (p : FsPath) (t : Texture) :
    c.insert p t = ⟨insertA p t c.cache, p :: c.order⟩ := by
  simp [ImageCache.insert, Nat.not_le.mpr h]

/-- Shape of `insert` at (or beyond) capacity with a nonempty order deque. -/
theorem insert_eq_of_ge {c : ImageCache} {q : FsPath} (h : CACHE_SIZE ≤ c.cache.length)
    (hq : c.order.getLast? = some q) (p : FsPath) (t : Texture) :
    c.insert p t = ⟨insertA p t (removeA q c.cache), p :: c.order.dropLast⟩ := by
  simp [ImageCache.insert, h, hq]

/-- The recency deque of a well-formed cache splits off its last element. -/
theorem order_decomp {c : ImageCache} (h : WfCache c) {q : FsPath}
    (hq : c.order.getLast? = some q) :
    c.order.dropLast ++ [q] = c.order ∧ q ∉ c.order.dropLast ∧
      c.order.dropLast.Nodup ∧ q ∈ c.order := by
  have hdecomp := List.dropLast_append_getLast? q (Option.mem_def.mpr hq)
  have hnd := h.nodupOrder
  rw [← hdecomp] at hnd
  rw [List.nodup_append] at hnd
  refine ⟨hdecomp, ?_, hnd.1, List.mem_of_getLast?_eq_some hq⟩
  intro hmem
  exact hnd.2.2 hmem (by simp)

/-- `insert` always puts the path at the front of the recency order. -/
theorem insert_head? (c : ImageCache) (p : FsPath) (t : Texture) :
    (c.insert p t).order.head? = some p := by
  simp [ImageCache.insert]

/-- `insert` always installs the mapping for the path. -/
theorem insert_lookup_self (c : ImageCache) (p : FsPath) (t : Texture) :
    lookupA p (c.insert p t).cache = some t := by
  simp [ImageCache.insert, lookupA_insertA_self]

/-! ### C4: `insert` semantics -/

/-- C4: for every path and texture, `insert` on a well-formed cache installs
or overwrites the mapping for that path and places it at the
most-recently-used (front) position of the recency order; below capacity
every other mapping is untouched; at capacity it first evicts exactly the
least-recently-used entry, namely the back of the recency order, leaving
all other mappings untouched. -/
theorem C4_insert (c : ImageCache) (p : FsPath) (t : Texture) (hwf : WfCache c) :
    lookupA p (c.insert p t).cache = some t ∧
    (c.insert p t).order.head? = some p ∧
    (c.cache.length < CACHE_SIZE →
      ∀ q, q ≠ p → lookupA q (c.insert p t).cache = lookupA q c.cache) ∧
    (CACHE_SIZE ≤ c.cache.length →
      ∃ q, c.order.getLast? = some q ∧ (lookupA q c.cache).isSome = true ∧
        (q ≠ p → lookupA q (c.insert p t).cache = none) ∧
        (∀ r, r ≠ p → r ≠ q → lookupA r (c.insert p t).cache = lookupA r c.cache)) := by
  refine ⟨insert_lookup_self c p t, insert_head? c p t, ?_, ?_⟩
  · intro hlt q hq
    rw [insert_eq_of_lt hlt p t]
    exact lookupA_insertA_ne hq t c.cache
  · intro hge
    have hordlen : c.order ≠ [] := by
      intro hnil
      have := hwf.length_order
      rw [hnil] at this
      simp only [List.length_nil] at this
      rw [← this] at hge
      simp [CACHE_SIZE] at hge
    have hq : c.order.getLast? = some (c.order.getLast hordlen) :=
      List.getLast?_eq_getLast_of_ne_nil hordlen
    set q := c.order.getLast hordlen with hqdef
    obtain ⟨_, _, _, hqmem⟩ := order_decomp hwf hq
    refine ⟨q, hq, (hwf.memIff q).1 hqmem, ?_, ?_⟩
    · intro hqp
      rw [insert_eq_of_ge hge hq p t]
      simp only
      rw [lookupA_insertA_ne hqp t, lookupA_removeA_self]
    · intro r hrp hrq
      rw [insert_eq_of_ge hge hq p t]
      simp only
      rw [lookupA_insertA_ne hrp t, lookupA_removeA_ne hrq]

/-- A concrete well-formed one-entry cache used by witnesses. -/
theorem wf_singleton : WfCache ⟨[(1, 10)], [1]⟩ := by
  refine ⟨by decide, ?_, by decide⟩
  intro q
  by_cases h : q = 1
  · subst h
    simp [lookupA]
  · have h1 : (1 : FsPath) ≠ q := fun hh => h hh.symm
    simp [lookupA, if_neg h1, h]

/-- Witness for C4 on a concrete well-formed cache. -/
theorem C4_witness :
    lookupA 2 ((⟨[(1, 10)], [1]⟩ : ImageCache).insert 2 20).cache = some 20 ∧
    ((⟨[(1, 10)], [1]⟩ : ImageCache).insert 2 20).order.head? = some 2 ∧
    (([(1, 10)] : List (FsPath × Texture)).length < CACHE_SIZE →
      ∀ q, q ≠ 2 → lookupA q ((⟨[(1, 10)], [1]⟩ : ImageCache).insert 2 20).cache =
        lookupA q [(1, 10)]) ∧
    (CACHE_SIZE ≤ ([(1, 10)] : List (FsPath × Texture)).length →
      ∃ q, ([1] : List FsPath).getLast? = some q ∧
        (lookupA q [(1, 10)]).isSome = true ∧
        (q ≠ 2 → lookupA q ((⟨[(1, 10)], [1]⟩ : ImageCache).insert 2 20).cache = none) ∧
        (∀ r, r ≠ 2 → r ≠ q →
          lookupA r ((⟨[(1, 10)], [1]⟩ : ImageCache).insert 2 20).cache =
            lookupA r [(1, 10)])) :=
  C4_insert ⟨[(1, 10)], [1]⟩ 2 20 wf_singleton

/-! ### Operation sequences on the cache (claim C1) -/

/-- One externally visible cache operation. -/
inductive CacheOp
  | get (p : FsPath)
  | ins (p : FsPath) (t : Texture)
deriving DecidableEq

/-- Run a sequence of operations on a cache. -/
def runOps : ImageCache → List CacheOp → ImageCache
  | c, [] => c
  | c, CacheOp.get p :: rest => runOps (c.get p).2 rest
  | c, CacheOp.ins p t :: rest => runOps (c.insert p t) rest

/-- Run a sequence of operations, also recording the touch history: the
list of paths touched (hit by `get`, or passed to `insert`), most recent
touch first. -/
def runHist : ImageCache → List FsPath → List CacheOp → ImageCache × List FsPath
  | c, h, [] => (c, h)
  | c, h, CacheOp.get p :: rest =>
      runHist (c.get p).2 (if (lookupA p c.cache).isSome then p :: h else h) rest
  | c, h, CacheOp.ins p t :: rest => runHist (c.insert p t) (p :: h) rest

/-- The discipline the program follows: `insert` is only ever applied to a
path that is not currently cached (`insert` is reached only through
`get_or_insert` after a missed `get`, gui.rs lines 67-74). -/
def disciplinedB : ImageCache → List CacheOp → Bool
  | _, [] => true
  | c, CacheOp.get p :: rest => disciplinedB (c.get p).2 rest
  | c, CacheOp.ins p t :: rest =>
      (lookupA p c.cache).isNone && disciplinedB (c.insert p t) rest

/-- Run-time invariant tying a cache state to the touch history `h` (most
recent touch first): the state is well-formed, within capacity, the recency
order lists paths whose most recent touches appear in `h` in that same
relative order, and every ordered path has been touched. -/
structure CacheInv (c : ImageCache) (h : List FsPath) : Prop where
  wf : WfCache c
  sizeLe : c.cache.length ≤ CACHE_SIZE
  pairwiseIdx : c.order.Pairwise (fun a b => h.indexOf a < h.indexOf b)
  memHist : ∀ p ∈ c.order, p ∈ h

theorem cacheInv_new : CacheInv ImageCache.new [] := by
  refine ⟨⟨by simp [ImageCache.new], ?_, by simp [ImageCache.new]⟩, ?_, ?_, ?_⟩
  · intro p
    simp [ImageCache.new, lookupA]
  · simp [ImageCache.new, CACHE_SIZE]
  · simp [ImageCache.new]
  · simp [ImageCache.new]

theorem cacheInv_get {c : ImageCache} {h : List FsPath} (hI : CacheInv c h) (p : FsPath) :
    CacheInv (c.get p).2 (if (lookupA p c.cache).isSome then p :: h else h) := by
  cases hx : lookupA p c.cache with
  | none =>
    have hc : (c.get p).2 = c := by simp [ImageCache.get, hx]
    simp only [hx, Option.isSome_none, Bool.false_eq_true, if_false, hc]
    exact hI
  | some t =>
    have hc : (c.get p).2 = { c with order := p :: c.order.filter (fun q => q != p) } := by
      simp [ImageCache.get, hx]
    simp only [hx, Option.isSome_some, if_true, hc]
    have hmemF : ∀ q, q ∈ c.order.filter (fun r => r != p) ↔ q ∈ c.order ∧ q ≠ p := by
      intro q
      simp [List.mem_filter, bne_iff_ne]
    refine ⟨⟨?_, ?_, hI.wf.nodupKeys⟩, hI.sizeLe, ?_, ?_⟩
    · simp only [List.nodup_cons]
      exact ⟨fun hmem => ((hmemF p).1 hmem).2 rfl, hI.wf.nodupOrder.filter _⟩
    · intro q
      simp only [List.mem_cons]
      constructor
      · rintro (rfl | hq)
        · simp [hx]
        · exact (hI.wf.memIff q).1 ((hmemF q).1 hq).1
      · intro hsome
        by_cases hqp : q = p
        · exact Or.inl hqp
        · exact Or.inr ((hmemF q).2 ⟨(hI.wf.memIff q).2 hsome, hqp⟩)
    · rw [List.pairwise_cons]
      constructor
      · intro b hb
        have hbp : p ≠ b := fun hh => ((hmemF b).1 hb).2 hh.symm
        rw [List.indexOf_cons_self, List.indexOf_cons_ne _ hbp]
        exact Nat.succ_pos _
      · have hsubl := (List.filter_sublist c.order (p := fun r => r != p))
        refine (hI.pairwiseIdx.sublist hsubl).imp_of_mem ?_
        intro a b ha hb hab
        have hap : p ≠ a := fun hh => ((hmemF a).1 ha).2 hh.symm
        have hbp : p ≠ b := fun hh => ((hmemF b).1 hb).2 hh.symm
        rw [List.indexOf_cons_ne _ hap, List.indexOf_cons_ne _ hbp]
        exact Nat.succ_lt_succ hab
    · intro q hq
      rcases List.mem_cons.1 hq with rfl | hq
      · exact List.mem_cons_self _ _
      · exact List.mem_cons_of_mem _ (hI.memHist q ((hmemF q).1 hq).1)

theorem cacheInv_ins {c : ImageCache} {h : List FsPath} (hI : CacheInv c h)
    {p : FsPath} (t : Texture) (hp : lookupA p c.cache = none) :
    CacheInv (c.insert p t) (p :: h) := by
  have hpnotmem : p ∉ c.order := by
    intro hmem
    have := (hI.wf.memIff p).1 hmem
    rw [hp] at this
    simp at this
  by_cases hge : CACHE_SIZE ≤ c.cache.length
  · have hordne : c.order ≠ [] := by
      intro hnil
      have hlen := hI.wf.length_order
      rw [hnil] at hlen
      simp only [List.length_nil] at hlen
      rw [← hlen] at hge
      simp [CACHE_SIZE] at hge
    have hq : c.order.getLast? = some (c.order.getLast hordne) :=
      List.getLast?_eq_getLast_of_ne_nil hordne
    obtain ⟨hdecomp, hqnot, hndDrop, hqmem⟩ := order_decomp hI.wf hq
    set q := c.order.getLast hordne with hqdef
    have hqlook := (hI.wf.memIff q).1 hqmem
    have hmemDrop : ∀ r, r ∈ c.order.dropLast → r ∈ c.order := by
      intro r hr
      rw [← hdecomp]
      exact List.mem_append_left _ hr
    rw [insert_eq_of_ge hge hq p t]
    have hp2 : lookupA p (removeA q c.cache) = none := by
      by_cases hpq : p = q
      · subst hpq
        exact lookupA_removeA_self _ _
      · rw [lookupA_removeA_ne hpq]
        exact hp
    refine ⟨⟨?_, ?_, nodupKeys_insertA t (nodupKeys_removeA hI.wf.nodupKeys)⟩, ?_, ?_, ?_⟩
    · simp only [List.nodup_cons]
      exact ⟨fun hmem => hpnotmem (hmemDrop p hmem), hndDrop⟩
    · intro r
      simp only [List.mem_cons]
      constructor
      · rintro (rfl | hr)
        · rw [lookupA_insertA_self]
          rfl
        · have hrq : r ≠ q := fun hh => hqnot (hh ▸ hr)
          have hrp : r ≠ p := fun hh => hpnotmem (hh ▸ hmemDrop r hr)
          rw [lookupA_insertA_ne hrp, lookupA_removeA_ne hrq]
          exact (hI.wf.memIff r).1 (hmemDrop r hr)
      · intro hsome
        by_cases hrp : r = p
        · exact Or.inl hrp
        · right
          rw [lookupA_insertA_ne hrp] at hsome
          by_cases hrq : r = q
          · subst hrq
            rw [lookupA_removeA_self] at hsome
            simp at hsome
          · rw [lookupA_removeA_ne hrq] at hsome
            have hrord := (hI.wf.memIff r).2 hsome
            rw [← hdecomp] at hrord
            rcases List.mem_append.1 hrord with h1 | h1
            · exact h1
            · simp only [List.mem_singleton] at h1
              exact absurd h1 hrq
    · have h1 := length_removeA_of_isSome hI.wf.nodupKeys hqlook
      rw [length_insertA_of_lookupA_none hp2]
      have := hI.sizeLe
      omega
    · rw [List.pairwise_cons]
      have hdropne : ∀ b ∈ c.order.dropLast, p ≠ b := by
        intro b hb hh
        exact hpnotmem (hh ▸ hmemDrop b hb)
      constructor
      · intro b hb
        rw [List.indexOf_cons_self, List.indexOf_cons_ne _ (hdropne b hb)]
        exact Nat.succ_pos _
      · have hsubl : List.Sublist c.order.dropLast c.order := List.dropLast_sublist _
        refine (hI.pairwiseIdx.sublist hsubl).imp_of_mem ?_
        intro a b ha hb hab
        rw [List.indexOf_cons_ne _ (hdropne a ha), List.indexOf_cons_ne _ (hdropne b hb)]
        exact Nat.succ_lt_succ hab
    · intro r hr
      rcases List.mem_cons.1 hr with rfl | hr
      · exact List.mem_cons_self _ _
      · exact List.mem_cons_of_mem _ (hI.memHist r (hmemDrop r hr))
  · have hlt : c.cache.length < CACHE_SIZE := Nat.lt_of_not_le hge
    rw [insert_eq_of_lt hlt p t]
    refine ⟨⟨?_, ?_, nodupKeys_insertA t hI.wf.nodupKeys⟩, ?_, ?_, ?_⟩
    · simp only [List.nodup_cons]
      exact ⟨hpnotmem, hI.wf.nodupOrder⟩
    · intro r
      simp only [List.mem_cons]
      constructor
      · rintro (rfl | hr)
        · rw [lookupA_insertA_self]
          rfl
        · have hrp : r ≠ p := fun hh => hpnotmem (hh ▸ hr)
          rw [lookupA_insertA_ne hrp]
          exact (hI.wf.memIff r).1 hr
      · intro hsome
        by_cases hrp : r = p
        · exact Or.inl hrp
        · right
          rw [lookupA_insertA_ne hrp] at hsome
          exact (hI.wf.memIff r).2 hsome
    · rw [length_insertA_of_lookupA_none hp]
      omega
    · rw [List.pairwise_cons]
      have hordne : ∀ b ∈ c.order, p ≠ b := fun b hb hh => hpnotmem (hh ▸ hb)
      constructor
      · intro b hb
        rw [List.indexOf_cons_self, List.indexOf_cons_ne _ (hordne b hb)]
        exact Nat.succ_pos _
      · refine hI.pairwiseIdx.imp_of_mem ?_
        intro a b ha hb hab
        rw [List.indexOf_cons_ne _ (hordne a ha), List.indexOf_cons_ne _ (hordne b hb)]
        exact Nat.succ_lt_succ hab
    · intro r hr
      rcases List.mem_cons.1 hr with rfl | hr
      · exact List.mem_cons_self _ _
      · exact List.mem_cons_of_mem _ (hI.memHist r hr)

theorem runHist_fst : ∀ (ops : List CacheOp) (c : ImageCache) (h : List FsPath),
    (runHist c h ops).1 = runOps c ops := by
  intro ops
  induction ops with
  | nil => intro c h; rfl
  | cons op rest ih =>
    intro c h
    cases op with
    | get p => simp only [runHist, runOps, ih]
    | ins p t => simp only [runHist, runOps, ih]

theorem cacheInv_runHist : ∀ (ops : List CacheOp) (c : ImageCache) (h : List FsPath),
    CacheInv c h → disciplinedB c ops = true →
    CacheInv (runHist c h ops).1 (runHist c h ops).2 := by
  intro ops
  induction ops with
  | nil => intro c h hI _; exact hI
  | cons op rest ih =>
    intro c h hI hd
    cases op with
    | get p =>
      simp only [runHist, disciplinedB] at hd ⊢
      exact ih _ _ (cacheInv_get hI p) hd
    | ins p t =>
      simp only [runHist, disciplinedB, Bool.and_eq_true] at hd ⊢
      have hp : lookupA p c.cache = none := Option.isNone_iff_eq_none.1 hd.1
      exact ih _ _ (cacheInv_ins hI t hp) hd.2

theorem disciplinedB_append : ∀ (l1 l2 : List CacheOp) (c : ImageCache),
    disciplinedB c (l1 ++ l2) = (disciplinedB c l1 && disciplinedB (runOps c l1) l2) := by
  intro l1
  induction l1 with
  | nil => intro l2 c; simp [disciplinedB, runOps]
  | cons op rest ih =>
    intro l2 c
    cases op with
    | get p =>
      simp only [List.cons_append, disciplinedB, runOps]
      exact ih l2 ((c.get p).2)
    | ins p t =>
      simp only [List.cons_append, disciplinedB, runOps]
      have hap : rest.append l2 = rest ++ l2 := rfl
      rw [hap, ih l2 (c.insert p t), Bool.and_assoc]

/-! ### C1: the LRU invariant over operation sequences -/

/-- An operation sequence refuting C1 as literally stated: `insert` on a
path that is already cached duplicates it in the recency deque (gui.rs line
64 pushes without removing the old occurrence), after which one eviction
pops the stale duplicate and the next eviction removes a path that is no
longer cached, letting the map grow to 101 entries. -/
def C1badOps : List CacheOp :=
  CacheOp.ins 1 0 :: CacheOp.ins 1 0 ::
    ((List.range 99).map (fun i => CacheOp.ins (i + 2) 0) ++
      [CacheOp.ins 101 0, CacheOp.ins 102 0])

set_option maxRecDepth 100000 in
set_option maxHeartbeats 1000000 in
/-- C1 counterexample: after `C1badOps` (103 inserts, the first path
inserted twice) the cache holds 101 entries, exceeding `CACHE_SIZE`; so
the claim is false for unrestricted insert/get sequences. -/
theorem C1_counterexample :
    ¬ ((runOps ImageCache.new C1badOps).cache.length ≤ CACHE_SIZE) := by decide

/-- C1 (amended): for every sequence of `get`/`insert` operations from the
empty cache in which `insert` is only applied to paths not currently cached
(the discipline the program follows, since `insert` is only reached through
`get_or_insert` after a miss), the cache never holds more than `CACHE_SIZE`
entries; and whenever an `insert` happens at capacity, the entry it evicts
is the back of the recency order, which is cached and is touched (by
`get`-hit or `insert`) less recently than every other cached path in the
touch history. -/
theorem C1_amended (ops : List CacheOp)
    (hd : disciplinedB ImageCache.new ops = true) :
    (runOps ImageCache.new ops).cache.length ≤ CACHE_SIZE ∧
    (∀ pre p t post, ops = pre ++ CacheOp.ins p t :: post →
      CACHE_SIZE ≤ (runOps ImageCache.new pre).cache.length →
      ∃ q, (runOps ImageCache.new pre).order.getLast? = some q ∧
        (lookupA q (runOps ImageCache.new pre).cache).isSome = true ∧
        lookupA q ((runOps ImageCache.new pre).insert p t).cache = none ∧
        ∀ r, (lookupA r (runOps ImageCache.new pre).cache).isSome = true → r ≠ q →
          (runHist ImageCache.new [] pre).2.indexOf r <
            (runHist ImageCache.new [] pre).2.indexOf q) := by
  constructor
  · have hI := cacheInv_runHist ops ImageCache.new [] cacheInv_new hd
    rw [runHist_fst] at hI
    exact hI.sizeLe
  · intro pre p t post heq hge
    subst heq
    rw [disciplinedB_append, Bool.and_eq_true] at hd
    have hdpre := hd.1
    have hdstep := hd.2
    simp only [disciplinedB, Bool.and_eq_true] at hdstep
    have hp : lookupA p (runOps ImageCache.new pre).cache = none :=
      Option.isNone_iff_eq_none.1 hdstep.1
    have hI := cacheInv_runHist pre ImageCache.new [] cacheInv_new hdpre
    rw [runHist_fst] at hI
    set s := runOps ImageCache.new pre with hsdef
    set hist := (runHist ImageCache.new [] pre).2 with hhdef
    have hordne : s.order ≠ [] := by
      intro hnil
      have hlen := hI.wf.length_order
      rw [hnil] at hlen
      simp only [List.length_nil] at hlen
      rw [← hlen] at hge
      simp [CACHE_SIZE] at hge
    have hq : s.order.getLast? = some (s.order.getLast hordne) :=
      List.getLast?_eq_getLast_of_ne_nil hordne
    set q := s.order.getLast hordne with hqdef
    obtain ⟨hdecomp, hqnot, hndDrop, hqmem⟩ := order_decomp hI.wf hq
    have hqlook := (hI.wf.memIff q).1 hqmem
    have hqp : q ≠ p := by
      intro hh
      rw [hh, hp] at hqlook
      simp at hqlook
    refine ⟨q, hq, hqlook, ?_, ?_⟩
    · rw [insert_eq_of_ge hge hq p t]
      simp only
      rw [lookupA_insertA_ne hqp, lookupA_removeA_self]
    · intro r hr hrq
      have hrmem : r ∈ s.order := (hI.wf.memIff r).2 hr
      have hrdrop : r ∈ s.order.dropLast := by
        rw [← hdecomp] at hrmem
        rcases List.mem_append.1 hrmem with h1 | h1
        · exact h1
        · simp only [List.mem_singleton] at h1
          exact absurd h1 hrq
      have hpw := hI.pairwiseIdx
      rw [← hdecomp] at hpw
      have := (List.pairwise_append.1 hpw).2.2
      exact this r hrdrop q (by simp)

/-- Witness for the amended C1 at a one-element disciplined sequence. -/
theorem C1_amended_witness :
    (runOps ImageCache.new [CacheOp.ins 1 0]).cache.length ≤ CACHE_SIZE ∧
    (∀ pre p t post, [CacheOp.ins 1 0] = pre ++ CacheOp.ins p t :: post →
      CACHE_SIZE ≤ (runOps ImageCache.new pre).cache.length →
      ∃ q, (runOps ImageCache.new pre).order.getLast? = some q ∧
        (lookupA q (runOps ImageCache.new pre).cache).isSome = true ∧
        lookupA q ((runOps ImageCache.new pre).insert p t).cache = none ∧
        ∀ r, (lookupA r (runOps ImageCache.new pre).cache).isSome = true → r ≠ q →
          (runHist ImageCache.new [] pre).2.indexOf r <
            (runHist ImageCache.new [] pre).2.indexOf q) :=
  C1_amended [CacheOp.ins 1 0] (by decide)

/-! ### Folder scanning (claims C7 and C10) -/

/-- A directory entry as yielded by `fs::read_dir`: its file name (names
are modelled as UTF-8 strings, so `OsStr::to_str` always succeeds) and
whether `Path::is_file()` holds for it (false for subdirectories). -/
structure DirEntry where
  name : String
  isFile : Bool
deriving DecidableEq

/-- The characters after the last dot of the list, if any. -/
def afterLastDot : List Char → Option (List Char)
  | [] => none
  | c :: rest =>
      match afterLastDot rest with
      | some e => some e
      | none => if c = '.' then some rest else none

/-- `std::path::Path::extension` on a file name: the portion after the
last dot, where a dot in leading position (hidden file) does not qualify
and `..` has no extension; `none` when no qualifying dot exists. -/
def rustExtension (name : String) : Option String :=
  match name.data with
  | [] => none
  | _ :: rest =>
      if name = ".." then none
      else
        match afterLastDot rest with
        | some e => some (String.mk e)
        | none => none

/-- The eligibility test of `ImageLoader::load_folder` (gui.rs lines
97-101): a regular file whose extension is literally `png`, `jpg` or
`jpeg`. -/
def folderEligible (en : DirEntry) : Bool :=
  en.isFile &&
    (match rustExtension en.name with
     | some e => e == "png" || e == "jpg" || e == "jpeg"
     | none => false)

/-- The scan of `ImageLoader::load_folder` (gui.rs lines 93-109): on
`read_dir` failure (`dir = none`) the queue stays empty; otherwise each
`Ok` entry passing the filter contributes its path (`Err` entries are
dropped by `entry.ok()`). -/
def load_folder_scan (dir : Option (List (Option DirEntry))) : List String :=
  match dir with
  | none => []
  | some entries =>
      entries.filterMap (fun oe =>
        oe.bind (fun e => if folderEligible e then some e.name else none))

/-- The eligibility test of `set_random_wallpaper` (gui.rs lines 435-439),
textually the same filter as the folder scan. -/
def randomEligible (en : DirEntry) : Bool :=
  en.isFile &&
    (match rustExtension en.name with
     | some e => e == "png" || e == "jpg" || e == "jpeg"
     | none => false)

/-- The re-scan of `set_random_wallpaper` (gui.rs lines 430-447): the list
of candidate images from which a random one is chosen. -/
def random_scan_images (dir : Option (List (Option DirEntry))) : List String :=
  match dir with
  | none => []
  | some entries =>
      entries.filterMap (fun oe =>
        oe.bind (fun e => if randomEligible e then some e.name else none))

/-- ASCII lowercasing, used only to state the case-difference hypothesis. -/
def lowerAscii (s : String) : String := String.mk (s.data.map Char.toLower)

theorem folderEligible_iff (en : DirEntry) :
    folderEligible en = true ↔
      en.isFile = true ∧
        ∃ e, rustExtension en.name = some e ∧ (e = "png" ∨ e = "jpg" ∨ e = "jpeg") := by
  unfold folderEligible
  cases hre : rustExtension en.name with
  | none => simp
  | some e => simp [Bool.and_eq_true, Bool.or_eq_true, beq_iff_eq, or_assoc]

theorem randomEligible_iff (en : DirEntry) :
    randomEligible en = true ↔
      en.isFile = true ∧
        ∃ e, rustExtension en.name = some e ∧ (e = "png" ∨ e = "jpg" ∨ e = "jpeg") := by
  unfold randomEligible
  cases hre : rustExtension en.name with
  | none => simp
  | some e => simp [Bool.and_eq_true, Bool.or_eq_true, beq_iff_eq, or_assoc]

/-- C7: the folder scan returns exactly the names of the regular-file
entries whose extension is in the allow-list `png`, `jpg`, `jpeg`,
excluding all other files and subdirectories; on the spec's example
directory `a.png, b.jpg, c.txt, d.JPEG, sub/` it returns exactly
`a.png, b.jpg` — `d.JPEG` excluded, since the code chose case-sensitive
matching. -/
theorem C7_scan :
    (∀ (entries : List (Option DirEntry)) (s : String),
      s ∈ load_folder_scan (some entries) ↔
        ∃ en : DirEntry, some en ∈ entries ∧ en.isFile = true ∧
          (∃ e, rustExtension en.name = some e ∧
            (e = "png" ∨ e = "jpg" ∨ e = "jpeg")) ∧
          en.name = s) ∧
    load_folder_scan (some [some ⟨"a.png", true⟩, some ⟨"b.jpg", true⟩,
      some ⟨"c.txt", true⟩, some ⟨"d.JPEG", true⟩, some ⟨"sub", false⟩]) =
      ["a.png", "b.jpg"] := by
  constructor
  · intro entries s
    simp only [load_folder_scan, List.mem_filterMap]
    constructor
    · rintro ⟨oe, hoe, hbind⟩
      cases oe with
      | none => simp at hbind
      | some en =>
        simp only [Option.some_bind] at hbind
        by_cases hel : folderEligible en = true
        · rw [if_pos hel] at hbind
          obtain ⟨hfile, hext⟩ := (folderEligible_iff en).1 hel
          exact ⟨en, hoe, hfile, hext, by simpa using hbind⟩
        · rw [if_neg hel] at hbind
          simp at hbind
    · rintro ⟨en, hmem, hfile, hext, hname⟩
      refine ⟨some en, hmem, ?_⟩
      simp only [Option.some_bind]
      rw [if_pos ((folderEligible_iff en).2 ⟨hfile, hext⟩)]
      simpa using hname
  · decide

/-- C10: extension matching is case-sensitive in both the folder scan and
the random-wallpaper re-scan: an entry whose extension matches the
allow-list only after lowercasing (it differs from the literals in case
alone) fails both filters, and a directory holding just that file scans to
the empty result in both places. -/
theorem C10_case_sensitive :
    ∀ (en : DirEntry) (e : String), rustExtension en.name = some e →
      (lowerAscii e = "png" ∨ lowerAscii e = "jpg" ∨ lowerAscii e = "jpeg") →
      ¬(e = "png" ∨ e = "jpg" ∨ e = "jpeg") →
      folderEligible en = false ∧ randomEligible en = false ∧
      load_folder_scan (some [some en]) = [] ∧
      random_scan_images (some [some en]) = [] := by
  intro en e hre _hlow hne
  push_neg at hne
  obtain ⟨h1, h2, h3⟩ := hne
  have hmatch : (e == "png" || e == "jpg" || e == "jpeg") = false := by
    simp [h1, h2, h3]
  have hf : folderEligible en = false := by
    unfold folderEligible
    rw [hre]
    simp [hmatch]
  have hr : randomEligible en = false := by
    unfold randomEligible
    rw [hre]
    simp [hmatch]
  refine ⟨hf, hr, ?_, ?_⟩
  · simp [load_folder_scan, hf]
  · simp [random_scan_images, hr]

/-- Witness for C10 at the spec's `d.JPEG` example. -/
theorem C10_witness :
    folderEligible ⟨"d.JPEG", true⟩ = false ∧
    randomEligible ⟨"d.JPEG", true⟩ = false ∧
    load_folder_scan (some [some ⟨"d.JPEG", true⟩]) = [] ∧
    random_scan_images (some [some ⟨"d.JPEG", true⟩]) = [] :=
  C10_case_sensitive ⟨"d.JPEG", true⟩ "JPEG" (by decide) (by decide) (by decide)

/-! ### The per-path worker body (claims C8 and C2) -/

/-- One iteration of the worker closure of `load_images` (gui.rs lines
308-327): check the cancel flag; ask the shared cache via `get_or_insert`
(decode failure logs and returns); otherwise send the texture — a failed
send (`receiverAlive = false`, the receiving end was dropped) stores `true`
into the shared cancel flag. Returns the flag value after the iteration,
the cache after the iteration, and the path sent, if any. -/
def workerProcessPath (flag : Bool) (receiverAlive : Bool) (c : ImageCache)
    (p : FsPath) (dec : Option Texture) : Bool × ImageCache × Option FsPath :=
  if flag then (flag, c, none)
  else
    match c.get_or_insert p dec with
    | (none, c', _) => (flag, c', none)
    | (some _, c', _) =>
        if receiverAlive then (flag, c', some p)
        else (true, c', none)

/-- C8: when the channel send fails because the receiving end has been
dropped, the worker stores `true` into the shared cancellation flag and
sends nothing (first part); a sibling worker that observes the flag set
returns immediately, sending nothing and touching nothing (second part). -/
theorem C8_send_failure :
    (∀ (c : ImageCache) (p : FsPath) (dec : Option Texture),
      (c.get_or_insert p dec).1.isSome = true →
      workerProcessPath false false c p dec =
        (true, (c.get_or_insert p dec).2.1, none)) ∧
    (∀ (ra : Bool) (c : ImageCache) (p : FsPath) (dec : Option Texture),
      workerProcessPath true ra c p dec = (true, c, none)) := by
  constructor
  · intro c p dec hs
    cases hg : c.get_or_insert p dec with
    | mk o rest =>
      cases o with
      | none => rw [hg] at hs; simp at hs
      | some t =>
        simp [workerProcessPath, hg]
  · intro ra c p dec
    simp [workerProcessPath]

/-- Witness for C8: a worker decoding path 0 successfully with the receiver
gone sets the flag. -/
theorem C8_witness :
    workerProcessPath false false ImageCache.new 0 (some 3) =
      (true, (ImageCache.new.get_or_insert 0 (some 3)).2.1, none) ∧
    workerProcessPath true true ImageCache.new 0 none = (true, ImageCache.new, none) :=
  ⟨C8_send_failure.1 ImageCache.new 0 (some 3) (by decide),
   C8_send_failure.2 true ImageCache.new 0 none⟩

/-! ### Two load generations interleaved (claims C2 and C9) -/

/-- The per-generation consumer-side state of `load_images`: the shared
cancel flag, the queued (sent, not yet received) channel items, whether all
workers have dropped their senders, whether the idle drain source is still
installed, and the log of paths this generation's sink has rendered. -/
structure SinkSide where
  flag : Bool
  chan : List FsPath
  done : Bool
  live : Bool
  rendered : List FsPath
deriving DecidableEq

/-- One tick of the idle drain loop of `load_images` (gui.rs lines
330-381) for a generation tagged `gen`, also appending the rendered
entries to the flowbox `grid`: a removed source does nothing; a set flag
breaks (removes the source); otherwise up to 10 items are received and
rendered, and if fewer than 10 were available and all senders are gone the
next receive reports Disconnected, which stores the flag and breaks. -/
def sinkTickResult (g : SinkSide) (gen : Nat) (grid : List (Nat × FsPath)) :
    SinkSide × List (Nat × FsPath) :=
  if g.live = false then (g, grid)
  else if g.flag then ({ g with live := false }, grid)
  else
    let k := Nat.min 10 g.chan.length
    let items := g.chan.take k
    let g' := { g with chan := g.chan.drop k, rendered := g.rendered ++ items }
    let grid' := grid ++ items.map (fun p => (gen, p))
    if g.chan.length < 10 ∧ g.done then ({ g' with flag := true, live := false }, grid')
    else (g', grid')

/-- A freshly started generation: flag clear, empty channel, workers
running, idle source installed, nothing rendered. -/
def freshSink : SinkSide := ⟨false, [], false, true, []⟩

/-- Global state of the UI with (up to) two load generations: generation 1
is running; generation 2 starts when `load_images` is called again. -/
structure GState where
  g1 : SinkSide
  started2 : Bool
  g2 : SinkSide
  grid : List (Nat × FsPath)
deriving DecidableEq

/-- Initial state: generation 1 just started, generation 2 not yet. -/
def initG : GState := ⟨freshSink, false, ⟨false, [], false, false, []⟩, []⟩

/-- Events of the two-generation system. UI-thread events (`tick1`,
`startG2`, `tick2`) are serialized by the GTK main loop; worker events
(`wsend1`, `finish1`, `wsend2`, `finish2`) may interleave arbitrarily. -/
inductive GEvent
  | wsend1 (p : FsPath)
  | tick1
  | finish1
  | startG2
  | wsend2 (p : FsPath)
  | tick2
  | finish2
deriving DecidableEq

/-- Step function. `startG2` models `load_images` being entered again
(gui.rs lines 276-384): it stores `true` into generation 1's cancel flag
(lines 283-285), removes every flowbox child (lines 295-297), and spawns
generation 2 with a fresh flag, channel and idle source (lines 299-383),
all synchronously on the UI thread before any other UI callback can run. -/
def stepG (s : GState) : GEvent → GState
  | GEvent.wsend1 p =>
      if s.g1.done then s else { s with g1 := { s.g1 with chan := s.g1.chan ++ [p] } }
  | GEvent.tick1 =>
      let r := sinkTickResult s.g1 1 s.grid
      { s with g1 := r.1, grid := r.2 }
  | GEvent.finish1 => { s with g1 := { s.g1 with done := true } }
  | GEvent.startG2 =>
      { s with g1 := { s.g1 with flag := true }, grid := [], started2 := true,
               g2 := freshSink }
  | GEvent.wsend2 p =>
      if s.started2 = false ∨ s.g2.done then s
      else { s with g2 := { s.g2 with chan := s.g2.chan ++ [p] } }
  | GEvent.tick2 =>
      if s.started2 = false then s
      else
        let r := sinkTickResult s.g2 2 s.grid
        { s with g2 := r.1, grid := r.2 }
  | GEvent.finish2 =>
      if s.started2 = false then s else { s with g2 := { s.g2 with done := true } }

/-- Run a list of events. -/
def runG : GState → List GEvent → GState
  | s, [] => s
  | s, e :: rest => runG (stepG s e) rest

theorem runG_append : ∀ (l1 l2 : List GEvent) (s : GState),
    runG s (l1 ++ l2) = runG (runG s l1) l2 := by
  intro l1
  induction l1 with
  | nil => intro l2 s; rfl
  | cons e rest ih =>
    intro l2 s
    simp only [List.cons_append, runG]
    exact ih l2 (stepG s e)

/-- A tick of a generation whose flag is set removes the source and renders
nothing: state log and grid are unchanged. -/
theorem sinkTickResult_flag_set (g : SinkSide) (gen : Nat)
    (grid : List (Nat × FsPath)) (hf : g.flag = true) :
    (sinkTickResult g gen grid).1.flag = true ∧
    (sinkTickResult g gen grid).1.rendered = g.rendered ∧
    (sinkTickResult g gen grid).2 = grid := by
  unfold sinkTickResult
  by_cases hl : g.live = false
  · simp [hl, hf]
  · simp [hl, hf]

/-- A tick only ever appends entries of its own generation to the grid. -/
theorem sinkTickResult_grid_extend (g : SinkSide) (gen : Nat)
    (grid : List (Nat × FsPath)) :
    ∃ items : List FsPath,
      (sinkTickResult g gen grid).2 = grid ++ items.map (fun p => (gen, p)) := by
  unfold sinkTickResult
  by_cases hl : g.live = false
  · exact ⟨[], by simp [hl]⟩
  · by_cases hfl : g.flag
    · exact ⟨[], by simp [hl, hfl]⟩
    · by_cases hc : g.chan.length < 10 ∧ g.done
      · exact ⟨g.chan.take (Nat.min 10 g.chan.length), by simp [hl, hfl, hc]⟩
      · exact ⟨g.chan.take (Nat.min 10 g.chan.length), by simp [hl, hfl, hc]⟩

/-- Once generation 1's flag is set, it stays set and generation 1's sink
renders nothing further, under every event. -/
theorem g1_flag_stops_renders (e : GEvent) (s : GState) (hf : s.g1.flag = true) :
    (stepG s e).g1.flag = true ∧ (stepG s e).g1.rendered = s.g1.rendered := by
  cases e with
  | wsend1 p =>
      by_cases hd : s.g1.done <;> simp [stepG, hd, hf]
  | tick1 =>
      obtain ⟨h1, h2, _⟩ := sinkTickResult_flag_set s.g1 1 s.grid hf
      simp only [stepG]
      exact ⟨h1, h2⟩
  | finish1 => simp [stepG, hf]
  | startG2 => simp [stepG]
  | wsend2 p =>
      by_cases hd : s.started2 = false ∨ s.g2.done <;> simp [stepG, hd, hf]
  | tick2 =>
      by_cases hd : s.started2 = false <;> simp [stepG, hd, hf]
  | finish2 =>
      by_cases hd : s.started2 = false <;> simp [stepG, hd, hf]

theorem g1_rendered_frozen : ∀ (evs : List GEvent) (s : GState), s.g1.flag = true →
    (runG s evs).g1.flag = true ∧ (runG s evs).g1.rendered = s.g1.rendered := by
  intro evs
  induction evs with
  | nil => intro s hf; exact ⟨hf, rfl⟩
  | cons e rest ih =>
    intro s hf
    obtain ⟨hf', hr'⟩ := g1_flag_stops_renders e s hf
    obtain ⟨hf'', hr''⟩ := ih (stepG s e) hf'
    refine ⟨?_, ?_⟩ <;> simp only [runG]
    · exact hf''
    · rw [hr'', hr']

/-- C2: starting load generation 2 while generation 1's workers may still
be decoding and sending: no generation-1 entry is rendered into the UI sink
after `startG2`, for every interleaving of subsequent events (first part);
moreover a worker that observes the cancellation flag set — the check
performed before every send — returns without sending (second part). -/
theorem C2_cancellation :
    (∀ (pre post : List GEvent),
      (runG initG (pre ++ GEvent.startG2 :: post)).g1.rendered =
        (runG initG (pre ++ [GEvent.startG2])).g1.rendered) ∧
    (∀ (ra : Bool) (c : ImageCache) (p : FsPath) (dec : Option Texture),
      workerProcessPath true ra c p dec = (true, c, none)) := by
  constructor
  · intro pre post
    have h1 : pre ++ GEvent.startG2 :: post = (pre ++ [GEvent.startG2]) ++ post := by
      simp
    rw [h1, runG_append]
    have hflag : (runG initG (pre ++ [GEvent.startG2])).g1.flag = true := by
      rw [runG_append]
      simp [runG, stepG]
    exact (g1_rendered_frozen post _ hflag).2
  · intro ra c p dec
    simp [workerProcessPath]

/-- Once generation 1's flag is set and the grid holds only generation-2
entries, that remains so under every event. -/
theorem grid_gen2_only_step (e : GEvent) (s : GState) (hf : s.g1.flag = true)
    (hg : ∀ en ∈ s.grid, en.1 = 2) :
    (stepG s e).g1.flag = true ∧ ∀ en ∈ (stepG s e).grid, en.1 = 2 := by
  refine ⟨(g1_flag_stops_renders e s hf).1, ?_⟩
  cases e with
  | wsend1 p =>
      by_cases hd : s.g1.done
      · simp only [stepG, if_pos hd]
        exact hg
      · simp only [stepG, if_neg hd]
        exact hg
  | tick1 =>
      obtain ⟨_, _, h3⟩ := sinkTickResult_flag_set s.g1 1 s.grid hf
      simp only [stepG, h3]
      exact hg
  | finish1 => exact hg
  | startG2 => simp [stepG]
  | wsend2 p =>
      by_cases hd : s.started2 = false ∨ s.g2.done
      · simp only [stepG, if_pos hd]
        exact hg
      · simp only [stepG, if_neg hd]
        exact hg
  | tick2 =>
      by_cases hd : s.started2 = false
      · simp only [stepG, if_pos hd]
        exact hg
      · simp only [stepG, if_neg hd]
        obtain ⟨items, hit⟩ := sinkTickResult_grid_extend s.g2 2 s.grid
        rw [hit]
        intro en hen
        rcases List.mem_append.1 hen with h1 | h1
        · exact hg en h1
        · obtain ⟨q, _, hq2⟩ := List.mem_map.1 h1
          rw [← hq2]
  | finish2 =>
      by_cases hd : s.started2 = false
      · simp only [stepG, if_pos hd]
        exact hg
      · simp only [stepG, if_neg hd]
        exact hg

theorem grid_gen2_only_run : ∀ (evs : List GEvent) (s : GState), s.g1.flag = true →
    (∀ en ∈ s.grid, en.1 = 2) → ∀ en ∈ (runG s evs).grid, en.1 = 2 := by
  intro evs
  induction evs with
  | nil => intro s _ hg; exact hg
  | cons e rest ih =>
    intro s hf hg
    obtain ⟨hf', hg'⟩ := grid_gen2_only_step e s hf hg
    exact ih (stepG s e) hf' hg'

/-- C9: after a new folder load starts (`startG2` clears the flowbox before
generation 2's idle source can insert anything), every grid entry visible
at any later point belongs to generation 2 — no stale generation-1
thumbnail remains or reappears, for every interleaving. -/
theorem C9_clear_before_insert :
    ∀ (pre post : List GEvent) (en : Nat × FsPath),
      en ∈ (runG initG (pre ++ GEvent.startG2 :: post)).grid → en.1 = 2 := by
  intro pre post en hen
  have h1 : pre ++ GEvent.startG2 :: post = (pre ++ [GEvent.startG2]) ++ post := by
    simp
  rw [h1, runG_append] at hen
  have hflag : (runG initG (pre ++ [GEvent.startG2])).g1.flag = true := by
    rw [runG_append]
    simp [runG, stepG]
  have hgrid : ∀ e2 ∈ (runG initG (pre ++ [GEvent.startG2])).grid, e2.1 = 2 := by
    rw [runG_append]
    simp [runG, stepG]
  exact grid_gen2_only_run post _ hflag hgrid en hen

/-- Witness for C9: a trace with one generation-1 render before the switch
and one generation-2 render after it. -/
theorem C9_witness :
    ((2, 7) : Nat × FsPath) ∈
      (runG initG ([GEvent.wsend1 3, GEvent.tick1] ++ GEvent.startG2 ::
        [GEvent.wsend2 7, GEvent.tick2])).grid ∧
    ((2, 7) : Nat × FsPath).1 = 2 :=
  ⟨by decide,
   C9_clear_before_insert [GEvent.wsend1 3, GEvent.tick1]
     [GEvent.wsend2 7, GEvent.tick2] (2, 7) (by decide)⟩

/-! ### Drain termination for a single generation (claim C3) -/

/-- The worker phase of one generation with the cancel flag never set
(gui.rs lines 303-328), sequentialized in batch order: each path is looked
up or decoded through the shared cache via `get_or_insert`; successes are
sent, failures are logged and skipped. Returns the sent paths and the
final cache. (`rayon` only permutes the order across workers; claim C3
concerns which paths are sent and how many.) -/
def workersSent (c : ImageCache) (dec : FsPath → Option Texture) :
    List FsPath → List FsPath × ImageCache
  | [] => ([], c)
  | p :: rest =>
      match ImageCache.get_or_insert c p (dec p) with
      | (some _, c', _) =>
          let r := workersSent c' dec rest
          (p :: r.1, r.2)
      | (none, c', _) => workersSent c' dec rest

/-- One generation's channel/sink state with no cancellation: the worker
results not yet sent, the channel queue, the rendered log, and whether the
idle source is still installed. -/
structure DrainState where
  pending : List FsPath
  chan : List FsPath
  rendered : List FsPath
  live : Bool
deriving DecidableEq

/-- Events: a worker send, or one run of the idle callback. -/
inductive DEvent
  | send
  | tick
deriving DecidableEq

/-- `send` moves the next worker result into the channel. `tick` is one run
of the idle callback (gui.rs lines 330-381) with the flag never set:
receive and render up to 10 items; when fewer than 10 were available and
all senders are dropped (`pending = []`), the next receive reports
Disconnected and the callback returns Break (source removed). -/
def dstep : DrainState → DEvent → DrainState
  | s, DEvent.send =>
      match s.pending with
      | [] => s
      | p :: rest => { s with pending := rest, chan := s.chan ++ [p] }
  | s, DEvent.tick =>
      if s.live = false then s
      else
        let k := Nat.min 10 s.chan.length
        let s' := { s with chan := s.chan.drop k, rendered := s.rendered ++ s.chan.take k }
        if s.chan.length < 10 ∧ s.pending = [] then { s' with live := false } else s'

/-- Run a list of drain events. -/
def drun : DrainState → List DEvent → DrainState
  | s, [] => s
  | s, e :: rest => drun (dstep s e) rest

/-- Iterate `tick`. -/
def dticks : Nat → DrainState → DrainState
  | 0, s => s
  | n + 1, s => dticks n (dstep s DEvent.tick)

/-- Initial drain state of a generation whose workers will send `sent`. -/
def dinit (sent : List FsPath) : DrainState := ⟨sent, [], [], true⟩

/-- Drain invariant: nothing is lost or duplicated between the workers, the
channel and the sink, and a removed source implies a fully drained
channel and finished workers. -/
def DrainInv (sent : List FsPath) (s : DrainState) : Prop :=
  s.rendered ++ s.chan ++ s.pending = sent ∧
    (s.live = false → s.chan = [] ∧ s.pending = [])

theorem drainInv_init (sent : List FsPath) : DrainInv sent (dinit sent) :=
  ⟨by simp [dinit], by simp [dinit]⟩

theorem take_drop_chain (r : List FsPath) (k : Nat) (ch pnd : List FsPath) :
    r ++ ch.take k ++ ch.drop k ++ pnd = r ++ ch ++ pnd := by
  rw [List.append_assoc r, List.take_append_drop]

theorem drainInv_step {sent : List FsPath} {s : DrainState}
    (h : DrainInv sent s) (e : DEvent) : DrainInv sent (dstep s e) := by
  obtain ⟨h1, h2⟩ := h
  cases e with
  | send =>
    cases hp : s.pending with
    | nil =>
      simp only [dstep, hp]
      exact ⟨by rw [← h1, hp], h2⟩
    | cons p rest =>
      refine ⟨?_, ?_⟩
      · simp only [dstep]
        rw [hp] at h1 ⊢
        rw [← h1]
        simp
      · simp only [dstep, hp]
        intro hl
        obtain ⟨_, hpp⟩ := h2 hl
        rw [hpp] at hp
        exact absurd hp.symm (by simp)
  | tick =>
    by_cases hl : s.live = false
    · simp only [dstep, if_pos hl]
      exact ⟨h1, h2⟩
    · simp only [dstep, if_neg hl]
      by_cases hc : s.chan.length < 10 ∧ s.pending = []
      · simp only [if_pos hc]
        refine ⟨?_, fun _ => ⟨?_, hc.2⟩⟩
        · dsimp only
          rw [← h1]
          exact take_drop_chain _ _ _ _
        · dsimp only
          have hk : Nat.min 10 s.chan.length = s.chan.length :=
            Nat.min_eq_right (Nat.le_of_lt hc.1)
          rw [hk]
          exact List.drop_length s.chan
      · simp only [if_neg hc]
        refine ⟨?_, ?_⟩
        · dsimp only
          rw [← h1]
          exact take_drop_chain _ _ _ _
        · dsimp only
          intro hlf
          exact absurd hlf hl

theorem drainInv_run : ∀ (evs : List DEvent) (sent : List FsPath) (s : DrainState),
    DrainInv sent s → DrainInv sent (drun s evs) := by
  intro evs
  induction evs with
  | nil => intro sent s h; exact h
  | cons e rest ih => intro sent s h; exact ih sent (dstep s e) (drainInv_step h e)

theorem dticks_drain : ∀ (n : Nat) (sent : List FsPath) (s : DrainState),
    DrainInv sent s → s.pending = [] → s.chan.length ≤ n →
    ∃ k, (dticks k s).live = false ∧ (dticks k s).rendered = sent := by
  intro n
  induction n with
  | zero =>
    intro sent s hI hp hn
    have hchan : s.chan = [] := List.length_eq_zero.1 (Nat.le_zero.1 hn)
    have hrend : s.rendered = sent := by
      have := hI.1
      rw [hchan, hp] at this
      simpa using this
    by_cases hl : s.live = false
    · exact ⟨0, hl, hrend⟩
    · refine ⟨1, ?_, ?_⟩
      · simp [dticks, dstep, hl, hchan, hp]
      · simp [dticks, dstep, hl, hchan, hp, hrend]
  | succ n ih =>
    intro sent s hI hp hn
    by_cases hl : s.live = false
    · refine ⟨0, hl, ?_⟩
      obtain ⟨hc, hpp⟩ := hI.2 hl
      have := hI.1
      rw [hc, hpp] at this
      simpa using this
    · by_cases hlt : s.chan.length < 10
      · have hrend : s.rendered ++ s.chan = sent := by
          have := hI.1
          rw [hp] at this
          simpa using this
        have hk : Nat.min 10 s.chan.length = s.chan.length :=
          Nat.min_eq_right (Nat.le_of_lt hlt)
        refine ⟨1, ?_, ?_⟩
        · simp [dticks, dstep, hl, hlt, hp]
        · simp [dticks, dstep, hl, hlt, hp, hk, List.take_length, hrend]
      · have hcond : ¬(s.chan.length < 10 ∧ s.pending = []) :=
          fun hh => hlt hh.1
        have hstep := drainInv_step hI DEvent.tick
        have hpend : (dstep s DEvent.tick).pending = [] := by
          simp only [dstep, if_neg hl, if_neg hcond]
          exact hp
        have hlen : (dstep s DEvent.tick).chan.length ≤ n := by
          simp only [dstep, if_neg hl, if_neg hcond]
          simp only [List.length_drop]
          have hk : Nat.min 10 s.chan.length = 10 :=
            Nat.min_eq_left (Nat.le_of_not_lt hlt)
          rw [hk]
          have h10 : 10 ≤ s.chan.length := Nat.le_of_not_lt hlt
          omega
        obtain ⟨k, hk1, hk2⟩ := ih sent (dstep s DEvent.tick) hstep hpend hlen
        exact ⟨k + 1, hk1, hk2⟩

/-- C3: for a generation in which the cancellation flag is never set, after
any interleaving of worker sends and sink ticks that exhausts the workers'
queue, finitely many further ticks make the sink observe the channel
disconnected and stop polling (Break removes the idle source), having
rendered exactly the batch paths on which `get_or_insert` succeeded — in
particular exactly that many grid entries. -/
theorem C3_drain_termination (batch : List FsPath) (dec : FsPath → Option Texture)
    (c0 : ImageCache) (evs : List DEvent)
    (hdone : (drun (dinit (workersSent c0 dec batch).1) evs).pending = []) :
    ∃ k,
      (dticks k (drun (dinit (workersSent c0 dec batch).1) evs)).live = false ∧
      (dticks k (drun (dinit (workersSent c0 dec batch).1) evs)).rendered =
        (workersSent c0 dec batch).1 := by
  have hinv := drainInv_run evs (workersSent c0 dec batch).1 _
    (drainInv_init (workersSent c0 dec batch).1)
  exact dticks_drain (drun (dinit (workersSent c0 dec batch).1) evs).chan.length
    (workersSent c0 dec batch).1 _ hinv hdone le_rfl

/-- Witness for C3: a two-path batch, both decoding successfully, with both
sends delivered before the remaining ticks. -/
theorem C3_witness :
    ∃ k,
      (dticks k (drun (dinit (workersSent ImageCache.new (fun _ => some 5) [0, 1]).1)
        [DEvent.send, DEvent.send])).live = false ∧
      (dticks k (drun (dinit (workersSent ImageCache.new (fun _ => some 5) [0, 1]).1)
        [DEvent.send, DEvent.send])).rendered =
        (workersSent ImageCache.new (fun _ => some 5) [0, 1]).1 :=
  C3_drain_termination [0, 1] (fun _ => some 5) ImageCache.new
    [DEvent.send, DEvent.send] (by decide)
